import Mathlib

/-!
Verification development for the InterviewPrep repository.

The repository is a browser single-page interview-question tracker whose core
is a question/category store persisted in browser local storage, a merge-on-import
routine, and a derived filter view.  This file gives a shallow embedding of that
core and proves the testable properties stated in the specification.

Embedding conventions:
  * browser local storage is modelled as a function from keys to optional stored
    payloads; JSON round-trips of well-formed record arrays are the identity, so
    lists of records stand for their serialized form;
  * a JavaScript `Map` is modelled as an insertion-ordered association list
    (`mapSet` replaces in place at an existing key and appends a fresh key,
    exactly the observable `Map.set` behaviour);
  * `Array.prototype.sort` with comparator `(a, b) => b.createdAt - a.createdAt`
    is a stable descending sort by `createdAt`, modelled by `List.mergeSort`
    with the total relation `byCreatedAtDesc`;
  * JavaScript string truthiness (`if (s)`) is non-emptiness;
  * timestamps are modelled as `Int` (differences may be negative).
-/

/-- Web source of a grounding citation, from the `GroundingChunk` interface in
the types module: a `{uri, title}` pair. -/
structure WebSource where
  uri : String
  title : String
  deriving DecidableEq, Repr

/-- Grounding chunk: an optional web source, from the types module. -/
structure GroundingChunk where
  web : Option WebSource
  deriving DecidableEq, Repr

/-- Question record, from the `Question` interface in the types module.
The variant used by `App.tsx` declares `companyTag` optional (the data model
of the specification agrees), hence `Option String`. -/
structure Question where
  id : String
  text : String
  answer : String
  category : String
  companyTag : Option String
  createdAt : Int
  updatedAt : Int
  isAiGenerated : Bool
  sources : List GroundingChunk
  deriving DecidableEq, Repr

/-- Default category seed list `DEFAULT_CATEGORIES` from the types module. -/
def DEFAULT_CATEGORIES : List String :=
  ["Algorithm", "Reinforcement Learning", "SFT", "Machine Learning", "NLP",
   "Multimodal", "Software Engineering", "Behavioral", "Other"]

/-!
Question-store operations (`saveQuestion`, `importQuestions` and friends).
These are the store operations of the storage module; storage reads/writes of
the full collection are abstracted into an explicit `List Question` argument
and result (the collection currently stored under the canonical key).
-/

/-- Operation `saveQuestion` of the storage module: look up the record index
with `findIndex` on `id`; if found, assign in place; otherwise `unshift`
(prepend) the new record.  The written collection is returned. -/
def saveQuestion (question : Question) (questions : List Question) : List Question :=
  match questions.findIdx? (fun q => q.id == question.id) with
  | some i => questions.set i question
  | none => question :: questions

/-- Folding a sequence of `saveQuestion` calls over an initial stored
collection, in call order. -/
def applySaves (init : List Question) (saves : List Question) : List Question :=
  saves.foldl (fun acc q => saveQuestion q acc) init

/-- Last element of a `saveQuestion` call sequence carrying a given id
(`saveQuestion` has no validity guard, so every call counts). -/
def lastSaveWith : List Question → String → Option Question
  | [], _ => none
  | q :: rest, i =>
    match lastSaveWith rest i with
    | some r => some r
    | none => if q.id == i then some q else none

/-- Truthiness guard of `importQuestions`: `if (q.id && q.text)` — both strings
non-empty. -/
def validRecord (q : Question) : Bool :=
  q.id != "" && q.text != ""

/-- JavaScript `Map.set` on an insertion-ordered association list: replace the
value in place at an existing key, else append the new binding. -/
def mapSet : List (String × Question) → String → Question → List (String × Question)
  | [], k, v => [(k, v)]
  | (k', v') :: rest, k, v =>
    if k' == k then (k, v) :: rest else (k', v') :: mapSet rest k v

/-- JavaScript `Map.get`: value at the first binding of the key, if any. -/
def mapGet : List (String × Question) → String → Option Question
  | [], _ => none
  | (k', v) :: rest, k => if k' == k then some v else mapGet rest k

/-- Keys of the association list, in insertion order. -/
def mapKeys (m : List (String × Question)) : List String :=
  m.map Prod.fst

/-- The JavaScript expression `new Map(currentQuestions.map(q => [q.id, q]))`:
insert every record keyed by its id, in list order. -/
def mapFromList (l : List Question) : List (String × Question) :=
  l.foldl (fun acc q => mapSet acc q.id q) []

/-- The `forEach` upsert loop of `importQuestions`: records passing the
truthiness guard overwrite-or-insert by id. -/
def upsertAll (batch : List Question) (m : List (String × Question)) :
    List (String × Question) :=
  batch.foldl (fun acc q => if validRecord q then mapSet acc q.id q else acc) m

/-- The JavaScript comparator `(a, b) => b.createdAt - a.createdAt` as the
total Boolean relation used by the stable sort: `a` may precede `b` exactly
when `b.createdAt ≤ a.createdAt`. -/
def byCreatedAtDesc (a b : Question) : Bool :=
  decide (b.createdAt ≤ a.createdAt)

/-- The last record of the batch carrying a given id among those passing the
truthiness guard of `importQuestions`. -/
def lastValid : List Question → String → Option Question
  | [], _ => none
  | q :: rest, i =>
    match lastValid rest i with
    | some r => some r
    | none => if validRecord q && q.id == i then some q else none

/-- Operation `importQuestions` of the storage module, after the
`Array.isArray` guard: build a `Map` of the current collection keyed by id,
upsert every batch record with non-empty `id` and `text`, then store the map
values sorted by `createdAt` descending (stable sort). -/
def importQuestions (newQuestions : List Question) (current : List Question) :
    List Question :=
  let currentMap := mapFromList current
  let updated := upsertAll newQuestions currentMap
  (updated.map Prod.snd).mergeSort byCreatedAtDesc

/-- Runtime shape of the `importQuestions` argument as seen by the
`Array.isArray` check: a JSON array of records, or any non-array value. -/
inductive ImportInput where
  | array (records : List Question)
  | nonArray
  deriving DecidableEq, Repr

/-- Operation `importQuestions` including its `Array.isArray` guard, as a
state transformer on the stored collection: a non-array input throws
`Invalid data format` before any storage access, leaving the stored
collection untouched; an array input merges and stores. -/
def importQuestionsRun (input : ImportInput) (current : List Question) :
    Except String Unit × List Question :=
  match input with
  | .nonArray => (.error "Invalid data format", current)
  | .array records => (.ok (), importQuestions records current)

/-!
Category store (`renameCategory`, `removeCategory`) and the UI removal
handler.  The category list and the question collection are the two
persisted values these operations read and rewrite; they are bundled in an
explicit state record.
-/

/-- Combined persisted state touched by the category operations: the
effective category list (what `getCategories` returns) and the stored
question collection. -/
structure StoreState where
  categories : List String
  questions : List Question
  deriving DecidableEq, Repr

/-- Operation `renameCategory` of the storage module: `indexOf` the old name
(no-op when absent), assign the new name at that index, and rewrite
`category` on every question currently equal to the old name. -/
def renameCategory (oldName newName : String) (st : StoreState) : StoreState :=
  match st.categories.findIdx? (fun c => c == oldName) with
  | none => st
  | some i =>
    { categories := st.categories.set i newName
      questions := st.questions.map fun q =>
        if q.category == oldName then { q with category := newName } else q }

/-- Operation `removeCategory` of the storage module: filter the name out of
the category list and reassign every question of that category to
`"Other"`.  Note there is no guard on the name here. -/
def removeCategory (name : String) (st : StoreState) : StoreState :=
  { categories := st.categories.filter (fun c => c != name)
    questions := st.questions.map fun q =>
      if q.category == name then { q with category := "Other" } else q }

/-- UI handler `handleRemoveCat`: rejects the name `"Other"` outright
(alert, no store call); otherwise calls `removeCategory` only when the user
confirms the dialog. -/
def handleRemoveCat (name : String) (confirmed : Bool) (st : StoreState) : StoreState :=
  if name == "Other" then st
  else if confirmed then removeCategory name st
  else st

/-!
Read path `getQuestions` of `src/services/storageService.ts`, with its
legacy-key recovery.  The persistence medium maps keys to raw stored
strings; a raw string is abstracted by how `JSON.parse` treats it: the empty
string (falsy, skipped by the `if (stored)` truthiness test), an unparseable
string (`JSON.parse` throws), a parseable non-array value, or an array of
records.
-/

/-- Abstraction of a raw string held in local storage, by its `JSON.parse`
behaviour. -/
inductive StoredData where
  | emptyString
  | unparseable
  | jsonNonArray
  | jsonArr (records : List Question)
  deriving DecidableEq, Repr

/-- The persistence medium: `localStorage.getItem` returns the stored
payload or `null`. -/
def Medium : Type := String → Option StoredData

/-- The `localStorage.setItem` update of the medium. -/
def setItem (m : Medium) (k : String) (v : StoredData) : Medium :=
  fun k' => if k' == k then some v else m k'

/-- Canonical storage key `STORAGE_KEY` of the storage service. -/
def STORAGE_KEY : String := "interview_prep_questions_v1"

/-- Legacy keys `LEGACY_KEYS` of the storage service, in fallback priority
order. -/
def LEGACY_KEYS : List String :=
  ["interview_questions", "interview_prep_questions", "interview_app_data"]

/-- Runtime value `getQuestions` hands back to its caller: the declared type
is an array of records, but the unchecked `JSON.parse` on the canonical key
can also surface a parseable non-array value. -/
inductive LoadedValue where
  | questions (records : List Question)
  | nonArrayValue
  deriving DecidableEq, Repr

/-- The legacy-key recovery loop of `getQuestions`: scan the legacy keys in
order; a falsy, unparseable (inner `try`/`catch` continues), non-array or
empty-array payload is skipped; the first non-empty array is persisted under
the canonical key and returned. -/
def recoverLegacy : List String → Medium → LoadedValue × Medium
  | [], m => (.questions [], m)
  | k :: rest, m =>
    match m k with
    | none => recoverLegacy rest m
    | some .emptyString => recoverLegacy rest m
    | some .unparseable => recoverLegacy rest m
    | some .jsonNonArray => recoverLegacy rest m
    | some (.jsonArr l) =>
      if l.length > 0 then (.questions l, setItem m STORAGE_KEY (.jsonArr l))
      else recoverLegacy rest m

/-- Operation `getQuestions` of `storageService.ts`: read the canonical key;
a truthy stored string is parsed and returned as-is (an unparseable one
throws into the surrounding `catch`, yielding the empty collection); a
missing or falsy canonical payload falls through to legacy recovery.  The
function also returns the (possibly migrated) medium. -/
def getQuestions (m : Medium) : LoadedValue × Medium :=
  match m STORAGE_KEY with
  | some .unparseable => (.questions [], m)
  | some .jsonNonArray => (.nonArrayValue, m)
  | some (.jsonArr l) => (.questions l, m)
  | some .emptyString => recoverLegacy LEGACY_KEYS m
  | none => recoverLegacy LEGACY_KEYS m

/-!
Filter/view derivation `filteredQuestions` of `App.tsx`: category predicate,
relative date-bucket predicate, and case-insensitive substring search over
`text` and `companyTag`.
-/

/-- Lowercasing of `String.prototype.toLowerCase`, character by character. -/
def jsToLower (s : String) : String :=
  String.mk (s.data.map Char.toLower)

/-- Character-list match at the head: the first list is an initial segment of
the second. -/
def leadEq : List Char → List Char → Bool
  | [], _ => true
  | _ :: _, [] => false
  | a :: as, b :: bs => a == b && leadEq as bs

/-- Substring occurrence on character lists, scanning every start position
(the semantics of `String.prototype.includes`). -/
def hasSub (sub : List Char) : List Char → Bool
  | [] => sub.isEmpty
  | c :: rest => leadEq sub (c :: rest) || hasSub sub rest

/-- JavaScript `s.includes(sub)`. -/
def jsIncludes (s sub : String) : Bool :=
  hasSub sub.data s.data

/-- Milliseconds in a day, the `oneDay` constant of the filter. -/
def oneDay : Int := 24 * 60 * 60 * 1000

/-- The `filteredQuestions` memo of `App.tsx`: a single `Array.prototype.filter`
pass combining the category equality test (with `"All"` pass-through), the
relative date buckets on `now - updatedAt` (any unrecognized filter value
passes), and the case-insensitive substring test against `text` or a truthy
`companyTag`. -/
def filteredQuestions (now : Int) (selectedCategory dateFilter searchQuery : String)
    (questions : List Question) : List Question :=
  questions.filter fun q =>
    let matchCategory := selectedCategory == "All" || q.category == selectedCategory
    let matchDate :=
      if dateFilter != "all" then
        let diff := now - q.updatedAt
        if dateFilter == "today" then decide (diff < oneDay)
        else if dateFilter == "week" then decide (diff < oneDay * 7)
        else if dateFilter == "month" then decide (diff < oneDay * 30)
        else if dateFilter == "year" then decide (diff < oneDay * 365)
        else true
      else true
    let matchSearch :=
      jsIncludes (jsToLower q.text) (jsToLower searchQuery) ||
        (match q.companyTag with
         | some tag => tag != "" && jsIncludes (jsToLower tag) (jsToLower searchQuery)
         | none => false)
    matchCategory && matchDate && matchSearch

/-!
Specification-side filter predicate.  For the refinement claim about the
filter, the three predicates are restated here directly from the
specification's words and later proved to coincide with the `App.tsx`
filter; the `spec` name marks these as spec-derived, not source-derived.
-/

/-- Specification wording for the company-tag half of the text predicate:
case-insensitive substring match against `companyTag`, a missing tag never
matching. -/
def specTagSub (searchText : String) : Option String → Prop
  | none => False
  | some tag => (jsToLower searchText).data <:+: (jsToLower tag).data

instance (searchText : String) : (o : Option String) → Decidable (specTagSub searchText o)
  | none => isFalse fun h => h
  | some _ => inferInstanceAs (Decidable (_ <:+: _))

/-- Specification wording for the date predicate: a relative bucket
(`today`/`week`/`month`/`year`) computed as `now - updatedAt < N * dayMillis`
with `N` in `{1, 7, 30, 365}`; no active bucket passes everything. -/
def specDatePass (now : Int) (dateFilter : String) (q : Question) : Prop :=
  if dateFilter = "today" then now - q.updatedAt < oneDay
  else if dateFilter = "week" then now - q.updatedAt < oneDay * 7
  else if dateFilter = "month" then now - q.updatedAt < oneDay * 30
  else if dateFilter = "year" then now - q.updatedAt < oneDay * 365
  else True

instance (now : Int) (dateFilter : String) (q : Question) :
    Decidable (specDatePass now dateFilter q) := by
  unfold specDatePass
  split
  · exact inferInstance
  · split
    · exact inferInstance
    · split
      · exact inferInstance
      · split
        · exact inferInstance
        · exact inferInstance

/-- Specification wording for the whole filter predicate: category
pass-through on `"All"` or exact match, the date bucket, and the
case-insensitive text predicate (empty search text always passes; otherwise
a substring match against `text` or `companyTag`). -/
def specMatch (now : Int) (categoryFilter searchText dateFilter : String)
    (q : Question) : Prop :=
  (categoryFilter = "All" ∨ q.category = categoryFilter) ∧
  specDatePass now dateFilter q ∧
  (searchText = "" ∨ (jsToLower searchText).data <:+: (jsToLower q.text).data ∨
    specTagSub searchText q.companyTag)

instance (now : Int) (categoryFilter searchText dateFilter : String) (q : Question) :
    Decidable (specMatch now categoryFilter searchText dateFilter q) :=
  inferInstanceAs (Decidable (_ ∧ _ ∧ _))

/-- Concrete record builder used by witnesses and counterexamples. -/
def sampleQ (i t cat : String) (tag : Option String) (c u : Int) : Question :=
  { id := i, text := t, answer := "", category := cat, companyTag := tag,
    createdAt := c, updatedAt := u, isAiGenerated := false, sources := [] }

-- Sanity checks on small concrete inputs.
example :
    saveQuestion ⟨"a", "t", "", "Other", none, 1, 1, false, []⟩ [] =
      [⟨"a", "t", "", "Other", none, 1, 1, false, []⟩] := by decide

example :
    mapSet [("a", ⟨"a", "t", "", "Other", none, 1, 1, false, []⟩)] "a"
        ⟨"a", "u", "", "Other", none, 1, 1, false, []⟩ =
      [("a", ⟨"a", "u", "", "Other", none, 1, 1, false, []⟩)] := by decide

/-!
Generic list helpers: `set`/`find?` interaction and a no-duplicate
extraction principle.
-/

theorem set_eq_self_of_get {α : Type} {l : List α} {i : Nat} {a : α}
    (h : i < l.length) (ha : l.get ⟨i, h⟩ = a) : l.set i a = l := by
  apply List.ext_getElem (by simp)
  intro j hj hj2
  rw [List.getElem_set]
  split
  · next heq => subst heq; simpa [List.get_eq_getElem] using ha.symm
  · rfl

theorem find?_set_of_min {α : Type} {p : α → Bool} {l : List α} {i : Nat} {v : α}
    (h : i < l.length)
    (hmin : ∀ j (hj : j < i), p (l.get ⟨j, Nat.lt_trans hj h⟩) = false)
    (hv : p v = true) :
    (l.set i v).find? p = some v := by
  induction l generalizing i with
  | nil => simp at h
  | cons a t ih =>
    cases i with
    | zero =>
      simp only [List.set_cons_zero]
      exact List.find?_cons_of_pos _ hv
    | succ i =>
      have h0 : p a = false := by
        simpa using hmin 0 (Nat.succ_pos i)
      simp only [List.set_cons_succ]
      rw [List.find?_cons_of_neg _ (by simp [h0])]
      exact ih (Nat.lt_of_succ_lt_succ h)
        (fun j hj => by simpa using hmin (j + 1) (Nat.succ_lt_succ hj))

theorem find?_set_of_false {α : Type} {p : α → Bool} {l : List α} {i : Nat} {v : α}
    (h : i < l.length) (hold : p (l.get ⟨i, h⟩) = false) (hnew : p v = false) :
    (l.set i v).find? p = l.find? p := by
  induction l generalizing i with
  | nil => simp at h
  | cons a t ih =>
    cases i with
    | zero =>
      simp only [List.set_cons_zero]
      rw [List.find?_cons_of_neg _ (by simp [hnew]),
        List.find?_cons_of_neg _ (by simpa using hold)]
    | succ i =>
      simp only [List.set_cons_succ]
      by_cases hpa : p a = true
      · rw [List.find?_cons_of_pos _ hpa, List.find?_cons_of_pos _ hpa]
      · rw [List.find?_cons_of_neg _ (by simpa using hpa),
          List.find?_cons_of_neg _ (by simpa using hpa)]
        exact ih (Nat.lt_of_succ_lt_succ h) (by simpa using hold)

theorem eq_of_nodup_map_eq {α β : Type} {f : α → β} {l : List α} {a b : α}
    (h : (l.map f).Nodup) (ha : a ∈ l) (hb : b ∈ l) (hf : f a = f b) : a = b :=
  List.inj_on_of_nodup_map h ha hb hf

/-!
Behaviour of a single `saveQuestion` call.
-/

theorem saveQuestion_of_not_mem (q : Question) (s : List Question)
    (h : q.id ∉ s.map Question.id) : saveQuestion q s = q :: s := by
  unfold saveQuestion
  have : s.findIdx? (fun r => r.id == q.id) = none := by
    rw [List.findIdx?_eq_none_iff]
    intro r hr
    simp only [beq_eq_false_iff_ne, ne_eq]
    intro hid
    exact h (List.mem_map.mpr ⟨r, hr, hid⟩)
  rw [this]

theorem saveQuestion_of_get (q : Question) (s : List Question) (j : Nat)
    (hj : j < s.length) (hnd : (s.map Question.id).Nodup)
    (hid : (s.get ⟨j, hj⟩).id = q.id) : saveQuestion q s = s.set j q := by
  unfold saveQuestion
  have hfind : s.findIdx? (fun r => r.id == q.id) = some j := by
    rw [List.findIdx?_eq_some_iff_getElem]
    refine ⟨hj, by simpa [List.get_eq_getElem] using hid, ?_⟩
    intro j' hj'
    simp only [Bool.not_eq_true, beq_eq_false_iff_ne, ne_eq]
    intro heq
    have hj'lt : j' < s.length := Nat.lt_trans hj' hj
    have : s[j'].id = (s.get ⟨j, hj⟩).id := by
      rw [hid]; exact heq
    have hidx : j' = j := by
      have hinj := @List.Nodup.getElem_inj_iff _ (s.map Question.id) hnd j'
        (by simpa using hj'lt) j (by simpa using hj)
      apply hinj.mp
      simpa [List.get_eq_getElem] using this
    omega
  rw [hfind]

theorem saveQuestion_nodup (q : Question) (s : List Question)
    (h : (s.map Question.id).Nodup) :
    ((saveQuestion q s).map Question.id).Nodup := by
  unfold saveQuestion
  cases hf : s.findIdx? (fun r => r.id == q.id) with
  | none =>
    rw [List.findIdx?_eq_none_iff] at hf
    simp only [List.map_cons, List.nodup_cons]
    refine ⟨?_, h⟩
    intro hmem
    obtain ⟨r, hr, hidr⟩ := List.mem_map.mp hmem
    have := hf r hr
    rw [hidr] at this
    simp at this
  | some i =>
    rw [List.findIdx?_eq_some_iff_getElem] at hf
    obtain ⟨hlt, hp, -⟩ := hf
    have hid : s[i].id = q.id := by simpa using hp
    rw [List.map_set]
    have : (s.map Question.id).set i q.id = s.map Question.id := by
      apply set_eq_self_of_get (by simpa using hlt)
      simp [List.get_eq_getElem, hid]
    rw [this]
    exact h

theorem saveQuestion_find_self (q : Question) (s : List Question) :
    (saveQuestion q s).find? (fun r => r.id == q.id) = some q := by
  unfold saveQuestion
  cases hf : s.findIdx? (fun r => r.id == q.id) with
  | none => exact List.find?_cons_of_pos _ (by simp)
  | some i =>
    rw [List.findIdx?_eq_some_iff_getElem] at hf
    obtain ⟨hlt, hp, hmin⟩ := hf
    exact find?_set_of_min hlt
      (fun j hj => by
        simpa [List.get_eq_getElem] using hmin j hj)
      (by simp)

theorem saveQuestion_find_ne (q : Question) (s : List Question) (i : String)
    (hne : i ≠ q.id) :
    (saveQuestion q s).find? (fun r => r.id == i) = s.find? (fun r => r.id == i) := by
  unfold saveQuestion
  cases hf : s.findIdx? (fun r => r.id == q.id) with
  | none =>
    refine List.find?_cons_of_neg _ ?_
    simp only [beq_iff_eq]
    exact Ne.symm hne
  | some j =>
    rw [List.findIdx?_eq_some_iff_getElem] at hf
    obtain ⟨hlt, hp, -⟩ := hf
    have hid : s[j].id = q.id := by simpa using hp
    apply find?_set_of_false hlt
    · simp only [List.get_eq_getElem, hid, beq_eq_false_iff_ne, ne_eq]
      exact fun h => hne h.symm
    · simp only [beq_eq_false_iff_ne, ne_eq]
      exact fun h => hne h.symm

/-!
Behaviour of a sequence of `saveQuestion` calls.
-/

theorem applySaves_nil (init : List Question) : applySaves init [] = init := rfl

theorem applySaves_cons (init : List Question) (q : Question) (rest : List Question) :
    applySaves init (q :: rest) = applySaves (saveQuestion q init) rest := rfl

theorem applySaves_nodup (saves : List Question) (init : List Question)
    (h : (init.map Question.id).Nodup) :
    ((applySaves init saves).map Question.id).Nodup := by
  induction saves generalizing init with
  | nil => exact h
  | cons q rest ih =>
    rw [applySaves_cons]
    exact ih _ (saveQuestion_nodup q init h)

theorem applySaves_find_of_none (saves : List Question) (init : List Question)
    (i : String) (h : lastSaveWith saves i = none) :
    (applySaves init saves).find? (fun r => r.id == i) =
      init.find? (fun r => r.id == i) := by
  induction saves generalizing init with
  | nil => rfl
  | cons q rest ih =>
    rw [applySaves_cons]
    unfold lastSaveWith at h
    cases hli : lastSaveWith rest i with
    | some r => rw [hli] at h; simp at h
    | none =>
      rw [hli] at h
      have hne : i ≠ q.id := by
        intro heq
        rw [heq] at h
        simp at h
      rw [ih _ hli, saveQuestion_find_ne q init i hne]

theorem applySaves_find_last (saves : List Question) (init : List Question)
    (i : String) (r : Question) (h : lastSaveWith saves i = some r) :
    (applySaves init saves).find? (fun x => x.id == i) = some r := by
  induction saves generalizing init with
  | nil => simp [lastSaveWith] at h
  | cons q rest ih =>
    rw [applySaves_cons]
    unfold lastSaveWith at h
    cases hli : lastSaveWith rest i with
    | some r' =>
      rw [hli] at h
      simp only [Option.some.injEq] at h
      subst h
      exact ih _ hli
    | none =>
      rw [hli] at h
      by_cases hqi : q.id = i
      · rw [if_pos (by simpa using hqi)] at h
        simp only [Option.some.injEq] at h
        rw [applySaves_find_of_none rest _ i hli, ← h]
        have hself := saveQuestion_find_self q init
        rwa [hqi] at hself
      · rw [if_neg (by simpa using hqi)] at h
        simp at h

/-- C1: for every sequence of `saveQuestion` calls starting from a store with
no duplicate ids, the resulting collection has no duplicate ids, the record
stored under each id used equals the argument of the most recent call with
that id (and is the only record with that id), an existing id is replaced in
place (position preserved), and a new id is inserted at the front. -/
theorem saveQuestion_seq_spec (init saves : List Question)
    (hnd : (init.map Question.id).Nodup) :
    ((applySaves init saves).map Question.id).Nodup ∧
    (∀ i r, lastSaveWith saves i = some r →
      (applySaves init saves).find? (fun x => x.id == i) = some r ∧
      ∀ q ∈ applySaves init saves, q.id = i → q = r) ∧
    (∀ (q : Question) (s : List Question) (j : Nat) (hj : j < s.length),
      (s.map Question.id).Nodup → (s.get ⟨j, hj⟩).id = q.id →
      saveQuestion q s = s.set j q) ∧
    (∀ (q : Question) (s : List Question),
      q.id ∉ s.map Question.id → saveQuestion q s = q :: s) := by
  refine ⟨applySaves_nodup saves init hnd, ?_, saveQuestion_of_get,
    saveQuestion_of_not_mem⟩
  intro i r h
  have hfind := applySaves_find_last saves init i r h
  refine ⟨hfind, ?_⟩
  intro q hq hqi
  have hr : r ∈ applySaves init saves := List.mem_of_find?_eq_some hfind
  have hri : r.id = i := by simpa using List.find?_some hfind
  exact eq_of_nodup_map_eq (applySaves_nodup saves init hnd) hq hr (by rw [hqi, hri])

/-- Witness for C1 at a concrete input: two saves of id `a` (an edit) and one
of id `b`, starting from the empty store. -/
theorem saveQuestion_seq_spec_holds :
    ((applySaves [] [sampleQ "a" "New?" "Other" none 1 1,
        sampleQ "b" "Q2" "NLP" none 2 2,
        sampleQ "a" "Edited?" "Other" none 1 3]).map Question.id).Nodup ∧
    (∀ i r, lastSaveWith [sampleQ "a" "New?" "Other" none 1 1,
        sampleQ "b" "Q2" "NLP" none 2 2,
        sampleQ "a" "Edited?" "Other" none 1 3] i = some r →
      (applySaves [] [sampleQ "a" "New?" "Other" none 1 1,
        sampleQ "b" "Q2" "NLP" none 2 2,
        sampleQ "a" "Edited?" "Other" none 1 3]).find? (fun x => x.id == i) = some r ∧
      ∀ q ∈ applySaves [] [sampleQ "a" "New?" "Other" none 1 1,
        sampleQ "b" "Q2" "NLP" none 2 2,
        sampleQ "a" "Edited?" "Other" none 1 3], q.id = i → q = r) ∧
    (∀ (q : Question) (s : List Question) (j : Nat) (hj : j < s.length),
      (s.map Question.id).Nodup → (s.get ⟨j, hj⟩).id = q.id →
      saveQuestion q s = s.set j q) ∧
    (∀ (q : Question) (s : List Question),
      q.id ∉ s.map Question.id → saveQuestion q s = q :: s) :=
  saveQuestion_seq_spec [] _ (by decide)

/-!
Association-list model of the JavaScript `Map`: interaction of `mapSet`,
`mapGet` and `mapKeys`, and well-formedness (no duplicate keys, every
binding keyed by its record's id).
-/

theorem mapGet_set_self (m : List (String × Question)) (k : String) (v : Question) :
    mapGet (mapSet m k v) k = some v := by
  induction m with
  | nil => simp [mapSet, mapGet]
  | cons p rest ih =>
    obtain ⟨k', v'⟩ := p
    by_cases h : k' = k
    · simp [mapSet, h, mapGet]
    · simp only [mapSet, beq_iff_eq, if_neg h]
      simpa [mapGet, if_neg h] using ih

theorem mapGet_set_ne (m : List (String × Question)) (k : String) (v : Question)
    (k' : String) (h : k' ≠ k) : mapGet (mapSet m k v) k' = mapGet m k' := by
  have h' : k ≠ k' := Ne.symm h
  induction m with
  | nil => simp [mapSet, mapGet, h']
  | cons p rest ih =>
    obtain ⟨a, b⟩ := p
    by_cases ha : a = k
    · subst ha
      simp [mapSet, mapGet, h']
    · simp only [mapSet, beq_iff_eq, if_neg ha]
      by_cases ha' : a = k'
      · simp [mapGet, ha']
      · simp only [mapGet, beq_iff_eq, if_neg ha']
        exact ih

theorem mapGet_eq_none_of_not_mem (m : List (String × Question)) (k : String)
    (h : k ∉ mapKeys m) : mapGet m k = none := by
  induction m with
  | nil => rfl
  | cons p rest ih =>
    obtain ⟨a, b⟩ := p
    simp only [mapKeys, List.map_cons, List.mem_cons, not_or] at h
    have hka : a ≠ k := fun hh => h.1 hh.symm
    simp only [mapGet, beq_iff_eq, if_neg hka]
    exact ih (by simpa [mapKeys] using h.2)

theorem mapKeys_set_of_mem (m : List (String × Question)) (k : String) (v : Question)
    (h : k ∈ mapKeys m) : mapKeys (mapSet m k v) = mapKeys m := by
  induction m with
  | nil => simp [mapKeys] at h
  | cons p rest ih =>
    obtain ⟨a, b⟩ := p
    by_cases ha : a = k
    · simp [mapSet, ha, mapKeys]
    · simp only [mapKeys, List.map_cons, List.mem_cons] at h
      have hk : k ∈ mapKeys rest := by
        rcases h with h | h
        · exact absurd h.symm (by simpa using ha)
        · simpa [mapKeys] using h
      simp only [mapSet, beq_iff_eq, if_neg ha, mapKeys, List.map_cons]
      have := ih hk
      simpa [mapKeys] using this

theorem mapSet_of_not_mem (m : List (String × Question)) (k : String) (v : Question)
    (h : k ∉ mapKeys m) : mapSet m k v = m ++ [(k, v)] := by
  induction m with
  | nil => rfl
  | cons p rest ih =>
    obtain ⟨a, b⟩ := p
    simp only [mapKeys, List.map_cons, List.mem_cons, not_or] at h
    have hka : a ≠ k := fun hh => h.1 hh.symm
    simp only [mapSet, beq_iff_eq, if_neg hka, List.cons_append, List.cons.injEq, true_and]
    exact ih (by simpa [mapKeys] using h.2)

theorem mem_mapKeys_set (m : List (String × Question)) (k : String) (v : Question)
    (k' : String) (h : k' ∈ mapKeys m) : k' ∈ mapKeys (mapSet m k v) := by
  by_cases hk : k ∈ mapKeys m
  · rwa [mapKeys_set_of_mem m k v hk]
  · rw [mapSet_of_not_mem m k v hk]
    simp only [mapKeys, List.map_append, List.mem_append]
    exact Or.inl h

theorem self_mem_mapKeys_set (m : List (String × Question)) (k : String) (v : Question) :
    k ∈ mapKeys (mapSet m k v) := by
  by_cases hk : k ∈ mapKeys m
  · rwa [mapKeys_set_of_mem m k v hk]
  · rw [mapSet_of_not_mem m k v hk]
    simp [mapKeys]

theorem nodup_mapKeys_set (m : List (String × Question)) (k : String) (v : Question)
    (hnd : (mapKeys m).Nodup) : (mapKeys (mapSet m k v)).Nodup := by
  by_cases hk : k ∈ mapKeys m
  · rwa [mapKeys_set_of_mem m k v hk]
  · rw [mapSet_of_not_mem m k v hk]
    simp only [mapKeys, List.map_append]
    simp only [mapKeys] at hnd hk
    simp [List.nodup_append, hnd, hk]

theorem pair_mapSet (m : List (String × Question)) (q : Question)
    (hpair : ∀ p ∈ m, p.1 = p.2.id) :
    ∀ p ∈ mapSet m q.id q, p.1 = p.2.id := by
  induction m with
  | nil =>
    intro p hp
    simp only [mapSet, List.mem_singleton] at hp
    subst hp
    rfl
  | cons hd rest ih =>
    obtain ⟨a, b⟩ := hd
    intro p hp
    by_cases ha : a = q.id
    · simp only [mapSet, beq_iff_eq, if_pos ha, List.mem_cons] at hp
      rcases hp with hp | hp
      · subst hp; rfl
      · exact hpair p (List.mem_cons_of_mem _ hp)
    · simp only [mapSet, beq_iff_eq, if_neg ha, List.mem_cons] at hp
      rcases hp with hp | hp
      · subst hp; exact hpair (a, b) (List.mem_cons_self _ _)
      · exact ih (fun p' hp' => hpair p' (List.mem_cons_of_mem _ hp')) p hp

/-!
The upsert loop and the map construction.
-/

theorem upsertAll_nil (m : List (String × Question)) : upsertAll [] m = m := rfl

theorem upsertAll_cons (q : Question) (batch : List Question)
    (m : List (String × Question)) :
    upsertAll (q :: batch) m =
      upsertAll batch (if validRecord q then mapSet m q.id q else m) := rfl

theorem mapGet_upsertAll (batch : List Question) (m : List (String × Question))
    (i : String) :
    mapGet (upsertAll batch m) i =
      match lastValid batch i with
      | some r => some r
      | none => mapGet m i := by
  induction batch generalizing m with
  | nil => rfl
  | cons q rest ih =>
    rw [upsertAll_cons, ih]
    cases hlv : lastValid rest i with
    | some r =>
      have hrw : lastValid (q :: rest) i = some r := by
        unfold lastValid; rw [hlv]
      rw [hrw]
    | none =>
      have hrw : lastValid (q :: rest) i =
          if validRecord q && q.id == i then some q else none := by
        unfold lastValid; rw [hlv]
      rw [hrw]
      by_cases hv : validRecord q = true
      · by_cases hqi : q.id = i
        · rw [if_pos hv, if_pos (by simp [hv, hqi])]
          show mapGet (mapSet m q.id q) i = some q
          subst hqi
          exact mapGet_set_self m q.id q
        · rw [if_pos hv, if_neg (by simp [hqi])]
          show mapGet (mapSet m q.id q) i = mapGet m i
          exact mapGet_set_ne m q.id q i (fun hh => hqi hh.symm)
      · rw [if_neg hv, if_neg (by simp; exact fun hh => absurd hh hv)]

theorem mem_mapKeys_upsertAll_of_mem (batch : List Question)
    (m : List (String × Question)) (k : String) (h : k ∈ mapKeys m) :
    k ∈ mapKeys (upsertAll batch m) := by
  induction batch generalizing m with
  | nil => exact h
  | cons q rest ih =>
    rw [upsertAll_cons]
    by_cases hv : validRecord q
    · rw [if_pos hv]
      exact ih _ (mem_mapKeys_set m q.id q k h)
    · rw [if_neg hv]
      exact ih _ h

theorem mem_mapKeys_upsertAll (batch : List Question) (m : List (String × Question))
    (q : Question) (hq : q ∈ batch) (hv : validRecord q) :
    q.id ∈ mapKeys (upsertAll batch m) := by
  induction batch generalizing m with
  | nil => simp at hq
  | cons q' rest ih =>
    rw [upsertAll_cons]
    rcases List.mem_cons.mp hq with hq | hq
    · subst hq
      rw [if_pos hv]
      exact mem_mapKeys_upsertAll_of_mem rest _ q.id (self_mem_mapKeys_set m q.id q)
    · exact ih _ hq

theorem mapKeys_upsertAll_of_mem (batch : List Question) (m : List (String × Question))
    (h : ∀ q ∈ batch, validRecord q → q.id ∈ mapKeys m) :
    mapKeys (upsertAll batch m) = mapKeys m := by
  induction batch generalizing m with
  | nil => rfl
  | cons q rest ih =>
    rw [upsertAll_cons]
    by_cases hv : validRecord q
    · rw [if_pos hv]
      have hmem : q.id ∈ mapKeys m := h q (List.mem_cons_self _ _) hv
      rw [ih _ (fun q' hq' hv' => by
        rw [mapKeys_set_of_mem m q.id q hmem]
        exact h q' (List.mem_cons_of_mem _ hq') hv')]
      exact mapKeys_set_of_mem m q.id q hmem
    · rw [if_neg hv]
      exact ih _ (fun q' hq' hv' => h q' (List.mem_cons_of_mem _ hq') hv')

theorem nodup_mapKeys_upsertAll (batch : List Question) (m : List (String × Question))
    (hnd : (mapKeys m).Nodup) : (mapKeys (upsertAll batch m)).Nodup := by
  induction batch generalizing m with
  | nil => exact hnd
  | cons q rest ih =>
    rw [upsertAll_cons]
    by_cases hv : validRecord q
    · rw [if_pos hv]
      exact ih _ (nodup_mapKeys_set m q.id q hnd)
    · rw [if_neg hv]
      exact ih _ hnd

theorem pair_upsertAll (batch : List Question) (m : List (String × Question))
    (hpair : ∀ p ∈ m, p.1 = p.2.id) :
    ∀ p ∈ upsertAll batch m, p.1 = p.2.id := by
  induction batch generalizing m with
  | nil => exact hpair
  | cons q rest ih =>
    rw [upsertAll_cons]
    by_cases hv : validRecord q
    · rw [if_pos hv]
      exact ih _ (pair_mapSet m q hpair)
    · rw [if_neg hv]
      exact ih _ hpair

theorem foldl_mapSet_pair (l : List Question) (acc : List (String × Question))
    (hacc : ∀ p ∈ acc, p.1 = p.2.id) :
    ∀ p ∈ l.foldl (fun a q => mapSet a q.id q) acc, p.1 = p.2.id := by
  induction l generalizing acc with
  | nil => exact hacc
  | cons q rest ih =>
    simp only [List.foldl_cons]
    exact ih _ (pair_mapSet acc q hacc)

theorem foldl_mapSet_nodup (l : List Question) (acc : List (String × Question))
    (hacc : (mapKeys acc).Nodup) :
    (mapKeys (l.foldl (fun a q => mapSet a q.id q) acc)).Nodup := by
  induction l generalizing acc with
  | nil => exact hacc
  | cons q rest ih =>
    simp only [List.foldl_cons]
    exact ih _ (nodup_mapKeys_set acc q.id q hacc)

theorem pair_mapFromList (l : List Question) :
    ∀ p ∈ mapFromList l, p.1 = p.2.id :=
  foldl_mapSet_pair l [] (by simp)

theorem nodup_mapKeys_mapFromList (l : List Question) :
    (mapKeys (mapFromList l)).Nodup :=
  foldl_mapSet_nodup l [] (by simp [mapKeys])

theorem foldl_mapSet_of_disjoint (l : List Question) (acc : List (String × Question))
    (hdisj : ∀ q ∈ l, q.id ∉ mapKeys acc) (hnd : (l.map Question.id).Nodup) :
    l.foldl (fun a q => mapSet a q.id q) acc = acc ++ l.map (fun q => (q.id, q)) := by
  induction l generalizing acc with
  | nil => simp
  | cons q rest ih =>
    simp only [List.foldl_cons]
    have hset : mapSet acc q.id q = acc ++ [(q.id, q)] :=
      mapSet_of_not_mem acc q.id q (hdisj q (List.mem_cons_self _ _))
    rw [hset]
    simp only [List.map_cons, List.nodup_cons] at hnd
    rw [ih (acc ++ [(q.id, q)]) ?_ hnd.2]
    · simp [List.map_cons]
    · intro q' hq'
      simp only [mapKeys, List.map_append, List.mem_append, not_or]
      refine ⟨?_, ?_⟩
      · exact hdisj q' (List.mem_cons_of_mem _ hq')
      · simp only [List.map_cons, List.map_nil, List.mem_singleton]
        intro heq
        exact hnd.1 (heq ▸ List.mem_map_of_mem Question.id hq')

theorem mapFromList_of_nodup (l : List Question) (hnd : (l.map Question.id).Nodup) :
    mapFromList l = l.map (fun q => (q.id, q)) := by
  unfold mapFromList
  rw [foldl_mapSet_of_disjoint l [] (by simp [mapKeys]) hnd]
  simp

/-!
Reading the map back as a record list.
-/

theorem mapGet_pairs (l : List Question) (i : String) :
    mapGet (l.map fun q => (q.id, q)) i = l.find? (fun q => q.id == i) := by
  induction l with
  | nil => rfl
  | cons q rest ih =>
    simp only [List.map_cons, mapGet]
    by_cases h : q.id = i
    · rw [if_pos (by simpa using h), List.find?_cons_of_pos _ (by simpa using h)]
    · rw [if_neg (by simpa using h), List.find?_cons_of_neg _ (by simpa using h)]
      exact ih

theorem mapGet_eq_some_mem (m : List (String × Question)) (i : String) (v : Question)
    (h : mapGet m i = some v) : (i, v) ∈ m := by
  induction m with
  | nil => simp [mapGet] at h
  | cons p rest ih =>
    obtain ⟨k, b⟩ := p
    by_cases hk : k = i
    · rw [mapGet, if_pos (by simpa using hk)] at h
      simp only [Option.some.injEq] at h
      subst h; subst hk
      exact List.mem_cons_self _ _
    · rw [mapGet, if_neg (by simpa using hk)] at h
      exact List.mem_cons_of_mem _ (ih h)

theorem find?_eq_some_of_mem_nodup (l : List Question) (i : String) (r : Question)
    (hnd : (l.map Question.id).Nodup) (hr : r ∈ l) (hri : r.id = i) :
    l.find? (fun q => q.id == i) = some r := by
  induction l with
  | nil => simp at hr
  | cons a t ih =>
    simp only [List.map_cons, List.nodup_cons] at hnd
    by_cases hai : a.id = i
    · rw [List.find?_cons_of_pos _ (by simpa using hai)]
      rcases List.mem_cons.mp hr with hr | hr
      · rw [hr]
      · exfalso
        exact hnd.1 (by rw [hai, ← hri]; exact List.mem_map_of_mem Question.id hr)
    · rw [List.find?_cons_of_neg _ (by simpa using hai)]
      rcases List.mem_cons.mp hr with hr | hr
      · exact absurd (hr ▸ hri) hai
      · exact ih hnd.2 hr

theorem mapKeys_eq_of_pair (m : List (String × Question))
    (hpair : ∀ p ∈ m, p.1 = p.2.id) :
    (m.map Prod.snd).map Question.id = mapKeys m := by
  unfold mapKeys
  rw [List.map_map]
  apply List.map_congr_left
  intro p hp
  exact (hpair p hp).symm

theorem assoc_ext (m m' : List (String × Question))
    (hnd : (mapKeys m).Nodup) (hnd' : (mapKeys m').Nodup)
    (hkeys : mapKeys m = mapKeys m')
    (hget : ∀ i, mapGet m i = mapGet m' i) : m = m' := by
  induction m generalizing m' with
  | nil =>
    cases m' with
    | nil => rfl
    | cons p rest => simp [mapKeys] at hkeys
  | cons p rest ih =>
    cases m' with
    | nil => simp [mapKeys] at hkeys
    | cons p' rest' =>
      obtain ⟨k, v⟩ := p
      obtain ⟨k', v'⟩ := p'
      simp only [mapKeys, List.map_cons, List.cons.injEq] at hkeys
      obtain ⟨hkk, htl⟩ := hkeys
      subst hkk
      have hv : v = v' := by
        have := hget k
        rw [mapGet, if_pos (by simp), mapGet, if_pos (by simp)] at this
        simpa using this
      subst hv
      simp only [mapKeys, List.map_cons, List.nodup_cons] at hnd hnd'
      have htail : ∀ i, mapGet rest i = mapGet rest' i := by
        intro i
        by_cases hik : k = i
        · subst hik
          rw [mapGet_eq_none_of_not_mem rest k (by simpa [mapKeys] using hnd.1),
            mapGet_eq_none_of_not_mem rest' k (by simpa [mapKeys] using hnd'.1)]
        · have := hget i
          rw [mapGet, if_neg (by simpa using hik), mapGet,
            if_neg (by simpa using hik)] at this
          exact this
      rw [ih rest' (by simpa [mapKeys] using hnd.2) (by simpa [mapKeys] using hnd'.2)
        (by simpa [mapKeys] using htl) htail]

/-!
The sort relation.
-/

theorem byCreatedAtDesc_trans (a b c : Question) (hab : byCreatedAtDesc a b)
    (hbc : byCreatedAtDesc b c) : byCreatedAtDesc a c := by
  unfold byCreatedAtDesc at *
  simp only [decide_eq_true_eq] at *
  exact le_trans hbc hab

theorem byCreatedAtDesc_total (a b : Question) :
    byCreatedAtDesc a b || byCreatedAtDesc b a := by
  unfold byCreatedAtDesc
  rcases le_total a.createdAt b.createdAt with h | h <;> simp [h]

/-!
Structure of an `importQuestions` result.
-/

theorem import_core_pairs (batch current : List Question) :
    ∀ p ∈ upsertAll batch (mapFromList current), p.1 = p.2.id :=
  pair_upsertAll batch (mapFromList current) (pair_mapFromList current)

theorem import_core_nodup (batch current : List Question) :
    (mapKeys (upsertAll batch (mapFromList current))).Nodup :=
  nodup_mapKeys_upsertAll batch (mapFromList current) (nodup_mapKeys_mapFromList current)

theorem importQuestions_eq_sort (batch current : List Question) :
    importQuestions batch current =
      ((upsertAll batch (mapFromList current)).map Prod.snd).mergeSort byCreatedAtDesc := rfl

theorem importQuestions_perm_core (batch current : List Question) :
    (importQuestions batch current).Perm
      ((upsertAll batch (mapFromList current)).map Prod.snd) :=
  List.mergeSort_perm _ _

theorem importQuestions_nodup_ids (batch current : List Question) :
    ((importQuestions batch current).map Question.id).Nodup := by
  have hcore : (((upsertAll batch (mapFromList current)).map Prod.snd).map Question.id).Nodup := by
    rw [mapKeys_eq_of_pair _ (import_core_pairs batch current)]
    exact import_core_nodup batch current
  exact ((importQuestions_perm_core batch current).map Question.id).nodup_iff.mpr hcore

theorem importQuestions_sorted (batch current : List Question) :
    (importQuestions batch current).Pairwise (byCreatedAtDesc · ·) :=
  List.sorted_mergeSort byCreatedAtDesc_trans byCreatedAtDesc_total _

theorem importQuestions_mem_last (batch current : List Question) (i : String)
    (r : Question) (h : lastValid batch i = some r) :
    r ∈ importQuestions batch current ∧ r.id = i := by
  have hget : mapGet (upsertAll batch (mapFromList current)) i = some r := by
    have h2 := mapGet_upsertAll batch (mapFromList current) i
    rw [h] at h2
    exact h2
  have hmem : (i, r) ∈ upsertAll batch (mapFromList current) :=
    mapGet_eq_some_mem _ i r hget
  have hri : r.id = i := (import_core_pairs batch current (i, r) hmem).symm
  have hrvs : r ∈ (upsertAll batch (mapFromList current)).map Prod.snd :=
    List.mem_map_of_mem Prod.snd hmem
  exact ⟨(importQuestions_perm_core batch current).mem_iff.mpr hrvs, hri⟩

/-- C2: `importQuestions` is idempotent — applying the same batch twice to any
current stored collection yields the same final stored collection as applying
it once. -/
theorem importQuestions_idem (batch current : List Question) :
    importQuestions batch (importQuestions batch current) =
      importQuestions batch current := by
  have hpairFM := import_core_pairs batch current
  have hndFM := import_core_nodup batch current
  have hperm := importQuestions_perm_core batch current
  have hndres := importQuestions_nodup_ids batch current
  have hM2 : mapFromList (importQuestions batch current) =
      (importQuestions batch current).map (fun q => (q.id, q)) :=
    mapFromList_of_nodup _ hndres
  have hkeysM2 : mapKeys (mapFromList (importQuestions batch current)) =
      (importQuestions batch current).map Question.id := by
    rw [hM2]
    unfold mapKeys
    rw [List.map_map]
    rfl
  have hvsids : ((upsertAll batch (mapFromList current)).map Prod.snd).map Question.id =
      mapKeys (upsertAll batch (mapFromList current)) :=
    mapKeys_eq_of_pair _ hpairFM
  have hcover : ∀ q ∈ batch, validRecord q →
      q.id ∈ mapKeys (mapFromList (importQuestions batch current)) := by
    intro q hq hv
    rw [hkeysM2]
    have h1 : q.id ∈ mapKeys (upsertAll batch (mapFromList current)) :=
      mem_mapKeys_upsertAll batch _ q hq hv
    have h2 : q.id ∈ ((upsertAll batch (mapFromList current)).map Prod.snd).map Question.id :=
      hvsids ▸ h1
    exact (hperm.map Question.id).mem_iff.mpr h2
  have hfix : upsertAll batch (mapFromList (importQuestions batch current)) =
      mapFromList (importQuestions batch current) := by
    apply assoc_ext
    · exact nodup_mapKeys_upsertAll batch _ (nodup_mapKeys_mapFromList _)
    · exact nodup_mapKeys_mapFromList _
    · exact mapKeys_upsertAll_of_mem batch _ hcover
    · intro i
      rw [mapGet_upsertAll]
      cases hlv : lastValid batch i with
      | none => rfl
      | some r =>
        obtain ⟨hrres, hri⟩ := importQuestions_mem_last batch current i r hlv
        have hgetM2 : mapGet (mapFromList (importQuestions batch current)) i = some r := by
          rw [hM2, mapGet_pairs]
          exact find?_eq_some_of_mem_nodup _ i r hndres hrres hri
        exact hgetM2.symm
  rw [importQuestions_eq_sort batch (importQuestions batch current), hfix, hM2]
  have hid : ((importQuestions batch current).map (fun q => (q.id, q))).map Prod.snd =
      importQuestions batch current := by
    rw [List.map_map]
    exact List.map_id _
  rw [hid]
  exact List.mergeSort_of_sorted (importQuestions_sorted batch current)

/-- C10: when a batch contains several records with the same id (each passing
the non-empty id/text guard), the last such record of the batch is the one
present in the final stored collection — it overrides both any existing
record with that id and earlier duplicates within the batch. -/
theorem importQuestions_last_dup_wins (current batch : List Question) (i : String)
    (r : Question) (h : lastValid batch i = some r) :
    r ∈ importQuestions batch current ∧
    ∀ q ∈ importQuestions batch current, q.id = i → q = r := by
  obtain ⟨hmem, hri⟩ := importQuestions_mem_last batch current i r h
  refine ⟨hmem, ?_⟩
  intro q hq hqi
  exact eq_of_nodup_map_eq (importQuestions_nodup_ids batch current) hq hmem
    (by rw [hqi, hri])

/-- Witness for C10 at a concrete input: a batch with two records of id `a`
imported over a store already holding id `a`; the second batch record wins. -/
theorem importQuestions_last_dup_wins_holds :
    sampleQ "a" "dup2" "Other" none 3 3 ∈
      importQuestions
        [sampleQ "a" "dup1" "Other" none 2 2, sampleQ "a" "dup2" "Other" none 3 3]
        [sampleQ "a" "old" "Other" none 1 1] ∧
    ∀ q ∈ importQuestions
        [sampleQ "a" "dup1" "Other" none 2 2, sampleQ "a" "dup2" "Other" none 3 3]
        [sampleQ "a" "old" "Other" none 1 1],
      q.id = "a" → q = sampleQ "a" "dup2" "Other" none 3 3 :=
  importQuestions_last_dup_wins
    [sampleQ "a" "old" "Other" none 1 1]
    [sampleQ "a" "dup1" "Other" none 2 2, sampleQ "a" "dup2" "Other" none 3 3]
    "a" (sampleQ "a" "dup2" "Other" none 3 3) (by decide)

/-!
Frame behaviour of an import with no effective records (claim C4).
-/

theorem upsertAll_of_all_invalid (batch : List Question)
    (m : List (String × Question)) (h : ∀ q ∈ batch, validRecord q = false) :
    upsertAll batch m = m := by
  induction batch generalizing m with
  | nil => rfl
  | cons q rest ih =>
    rw [upsertAll_cons, if_neg (by simp [h q (List.mem_cons_self _ _)])]
    exact ih _ (fun q' hq' => h q' (List.mem_cons_of_mem _ hq'))

/-- Counterexample to C4 as stated: on a store that is not in
`createdAt`-descending order, `importQuestions` with the empty batch re-sorts
the collection, so the stored collection is not left unchanged. -/
theorem importQuestions_empty_reorders :
    importQuestions []
        [sampleQ "a" "Q1" "Other" none 1 1, sampleQ "b" "Q2" "Other" none 2 2] ≠
      [sampleQ "a" "Q1" "Other" none 1 1, sampleQ "b" "Q2" "Other" none 2 2] := by
  have hcore : (upsertAll []
      (mapFromList [sampleQ "a" "Q1" "Other" none 1 1,
        sampleQ "b" "Q2" "Other" none 2 2])).map Prod.snd =
      [sampleQ "a" "Q1" "Other" none 1 1, sampleQ "b" "Q2" "Other" none 2 2] := by
    decide
  rw [importQuestions_eq_sort, hcore]
  have hsort : List.mergeSort
      [sampleQ "a" "Q1" "Other" none 1 1, sampleQ "b" "Q2" "Other" none 2 2]
      byCreatedAtDesc =
      [sampleQ "b" "Q2" "Other" none 2 2, sampleQ "a" "Q1" "Other" none 1 1] := by
    simp [List.mergeSort, List.splitInTwo, List.merge, byCreatedAtDesc, sampleQ]
  rw [hsort]
  decide

/-- C4 as amended: an import of an empty batch, or of a batch whose records
all fail the non-empty id/text guard, leaves the stored collection unchanged
provided the current collection has no duplicate ids and is already in
`createdAt`-descending order; the counterexample shows the proviso is needed
because the final `createdAt`-descending re-sort (and duplicate-id collapse)
may otherwise rewrite the collection. -/
theorem importQuestions_frame (current : List Question)
    (hnd : (current.map Question.id).Nodup)
    (hsorted : current.Pairwise (byCreatedAtDesc · ·)) :
    importQuestions [] current = current ∧
    ∀ batch, (∀ q ∈ batch, validRecord q = false) →
      importQuestions batch current = current := by
  have hbase : ∀ batch, (∀ q ∈ batch, validRecord q = false) →
      importQuestions batch current = current := by
    intro batch hall
    rw [importQuestions_eq_sort, upsertAll_of_all_invalid batch _ hall,
      mapFromList_of_nodup current hnd]
    have hid : (current.map (fun q => (q.id, q))).map Prod.snd = current := by
      rw [List.map_map]
      exact List.map_id _
    rw [hid]
    exact List.mergeSort_of_sorted hsorted
  exact ⟨hbase [] (by simp), hbase⟩

/-- Witness for the amended C4 at a concrete input: a two-record store in
`createdAt`-descending order with distinct ids. -/
theorem importQuestions_frame_holds :
    importQuestions []
        [sampleQ "b" "Q2" "Other" none 2 2, sampleQ "a" "Q1" "Other" none 1 1] =
      [sampleQ "b" "Q2" "Other" none 2 2, sampleQ "a" "Q1" "Other" none 1 1] ∧
    ∀ batch, (∀ q ∈ batch, validRecord q = false) →
      importQuestions batch
          [sampleQ "b" "Q2" "Other" none 2 2, sampleQ "a" "Q1" "Other" none 1 1] =
        [sampleQ "b" "Q2" "Other" none 2 2, sampleQ "a" "Q1" "Other" none 1 1] :=
  importQuestions_frame
    [sampleQ "b" "Q2" "Other" none 2 2, sampleQ "a" "Q1" "Other" none 1 1]
    (by decide) (by decide)

/-- C3: a non-array import payload is rejected with the `Invalid data format`
error before any storage access, leaving the stored collection untouched,
while an array payload is never rejected by the format guard. -/
theorem importQuestionsRun_guard :
    (∀ current, importQuestionsRun ImportInput.nonArray current =
      (Except.error "Invalid data format", current)) ∧
    (∀ records current,
      (importQuestionsRun (ImportInput.array records) current).1 = Except.ok ()) :=
  ⟨fun _ => rfl, fun _ _ => rfl⟩

/-!
Category removal (claim C7) and rename (claim C8).
-/

/-- Counterexample to C7 as stated: the store-level `removeCategory` has no
guard on its argument — called with `"Other"` it removes the label from the
category list, so the call is not rejected and the state changes. -/
theorem removeCategory_other_changes :
    removeCategory "Other"
        { categories := ["Algorithm", "Other"], questions := [] } ≠
      { categories := ["Algorithm", "Other"], questions := [] } := by
  decide

/-- C7 as amended: the rejection of removing `"Other"` is enforced one level
up, in the UI handler — `handleRemoveCat "Other"` returns without touching
the store for any confirmation answer; the store-level `removeCategory
"Other"` does drop the label from the category list, though it leaves every
question record unchanged (reassigning `"Other"` to `"Other"`). -/
theorem handleRemoveCat_other_rejected :
    (∀ (confirmed : Bool) (st : StoreState),
      handleRemoveCat "Other" confirmed st = st) ∧
    (∀ st : StoreState,
      (removeCategory "Other" st).questions = st.questions ∧
      "Other" ∉ (removeCategory "Other" st).categories) := by
  constructor
  · intro confirmed st
    simp [handleRemoveCat]
  · intro st
    constructor
    · show st.questions.map _ = st.questions
      have hfix : ∀ q : Question,
          (if q.category == "Other" then { q with category := "Other" } else q) = q := by
        intro q
        by_cases h : q.category = "Other"
        · rw [if_pos (by simpa using h)]
          cases q
          simp_all
        · rw [if_neg (by simpa using h)]
      simp only [hfix]
      exact List.map_id _
    · show "Other" ∉ st.categories.filter fun c => c != "Other"
      simp [List.mem_filter]

/-- C8: after `renameCategory old new` with `old` present in the category
list, the category list carries `new` at a position `old` occupied (all
other labels unchanged, as `List.set` at that index), every question whose
category was `old` now carries `new` with all other fields unchanged, and
every question whose category was not `old` is completely unchanged,
position by position. -/
theorem renameCategory_spec (oldName newName : String) (st : StoreState)
    (hmem : oldName ∈ st.categories) :
    ∃ i, ∃ hi : i < st.categories.length,
      st.categories.get ⟨i, hi⟩ = oldName ∧
      (renameCategory oldName newName st).categories = st.categories.set i newName ∧
      (renameCategory oldName newName st).questions.length = st.questions.length ∧
      ∀ j (hj : j < st.questions.length)
        (hj' : j < (renameCategory oldName newName st).questions.length),
        ((st.questions.get ⟨j, hj⟩).category = oldName →
          (renameCategory oldName newName st).questions.get ⟨j, hj'⟩ =
            { st.questions.get ⟨j, hj⟩ with category := newName }) ∧
        ((st.questions.get ⟨j, hj⟩).category ≠ oldName →
          (renameCategory oldName newName st).questions.get ⟨j, hj'⟩ =
            st.questions.get ⟨j, hj⟩) := by
  have hex : ∃ c, c ∈ st.categories ∧ ((c == oldName) = true) :=
    ⟨oldName, hmem, by simp⟩
  have hfind := List.findIdx?_eq_some_of_exists hex
  have hprops := hfind
  rw [List.findIdx?_eq_some_iff_getElem] at hprops
  obtain ⟨hi, hp, -⟩ := hprops
  refine ⟨st.categories.findIdx (fun c => c == oldName), hi,
    by simpa [List.get_eq_getElem] using hp, ?_, ?_, ?_⟩
  · simp only [renameCategory, hfind]
  · simp only [renameCategory, hfind, List.length_map]
  · intro j hj hj'
    constructor
    · intro hcat
      simp only [renameCategory, hfind, List.get_eq_getElem, List.getElem_map]
      rw [if_pos (by simpa [List.get_eq_getElem] using hcat)]
    · intro hcat
      simp only [renameCategory, hfind, List.get_eq_getElem, List.getElem_map]
      rw [if_neg (by simpa [List.get_eq_getElem] using hcat)]

/-- Witness for C8 at a concrete input: renaming `Algorithm` to `Algos` in a
store with one `Algorithm`-tagged question and one `NLP`-tagged question. -/
theorem renameCategory_spec_holds :
    ∃ i, ∃ hi : i <
      (StoreState.mk ["Algorithm", "Other"]
        [sampleQ "q1" "t1" "Algorithm" none 1 1,
         sampleQ "q2" "t2" "NLP" none 2 2]).categories.length,
      (StoreState.mk ["Algorithm", "Other"]
        [sampleQ "q1" "t1" "Algorithm" none 1 1,
         sampleQ "q2" "t2" "NLP" none 2 2]).categories.get ⟨i, hi⟩ = "Algorithm" ∧
      (renameCategory "Algorithm" "Algos"
        (StoreState.mk ["Algorithm", "Other"]
          [sampleQ "q1" "t1" "Algorithm" none 1 1,
           sampleQ "q2" "t2" "NLP" none 2 2])).categories =
        (StoreState.mk ["Algorithm", "Other"]
          [sampleQ "q1" "t1" "Algorithm" none 1 1,
           sampleQ "q2" "t2" "NLP" none 2 2]).categories.set i "Algos" ∧
      (renameCategory "Algorithm" "Algos"
        (StoreState.mk ["Algorithm", "Other"]
          [sampleQ "q1" "t1" "Algorithm" none 1 1,
           sampleQ "q2" "t2" "NLP" none 2 2])).questions.length =
        (StoreState.mk ["Algorithm", "Other"]
          [sampleQ "q1" "t1" "Algorithm" none 1 1,
           sampleQ "q2" "t2" "NLP" none 2 2]).questions.length ∧
      ∀ j (hj : j < (StoreState.mk ["Algorithm", "Other"]
          [sampleQ "q1" "t1" "Algorithm" none 1 1,
           sampleQ "q2" "t2" "NLP" none 2 2]).questions.length)
        (hj' : j < (renameCategory "Algorithm" "Algos"
          (StoreState.mk ["Algorithm", "Other"]
            [sampleQ "q1" "t1" "Algorithm" none 1 1,
             sampleQ "q2" "t2" "NLP" none 2 2])).questions.length),
        (((StoreState.mk ["Algorithm", "Other"]
            [sampleQ "q1" "t1" "Algorithm" none 1 1,
             sampleQ "q2" "t2" "NLP" none 2 2]).questions.get ⟨j, hj⟩).category =
              "Algorithm" →
          (renameCategory "Algorithm" "Algos"
            (StoreState.mk ["Algorithm", "Other"]
              [sampleQ "q1" "t1" "Algorithm" none 1 1,
               sampleQ "q2" "t2" "NLP" none 2 2])).questions.get ⟨j, hj'⟩ =
            { (StoreState.mk ["Algorithm", "Other"]
                [sampleQ "q1" "t1" "Algorithm" none 1 1,
                 sampleQ "q2" "t2" "NLP" none 2 2]).questions.get ⟨j, hj⟩ with
              category := "Algos" }) ∧
        (((StoreState.mk ["Algorithm", "Other"]
            [sampleQ "q1" "t1" "Algorithm" none 1 1,
             sampleQ "q2" "t2" "NLP" none 2 2]).questions.get ⟨j, hj⟩).category ≠
              "Algorithm" →
          (renameCategory "Algorithm" "Algos"
            (StoreState.mk ["Algorithm", "Other"]
              [sampleQ "q1" "t1" "Algorithm" none 1 1,
               sampleQ "q2" "t2" "NLP" none 2 2])).questions.get ⟨j, hj'⟩ =
            (StoreState.mk ["Algorithm", "Other"]
              [sampleQ "q1" "t1" "Algorithm" none 1 1,
               sampleQ "q2" "t2" "NLP" none 2 2]).questions.get ⟨j, hj⟩) :=
  renameCategory_spec "Algorithm" "Algos"
    (StoreState.mk ["Algorithm", "Other"]
      [sampleQ "q1" "t1" "Algorithm" none 1 1, sampleQ "q2" "t2" "NLP" none 2 2])
    (by decide)

/-!
Read path and legacy migration (claims C5 and C6).
-/

/-- Divergence witness for C5: with the canonical key holding a parseable
non-array JSON value, `getQuestions` hands that non-array value straight
back to its caller (the `return JSON.parse(stored)` on the canonical path
has no `Array.isArray` check), instead of the empty collection required by
the fail-soft contract; an unparseable canonical payload, by contrast, is
caught and yields the empty collection. -/
theorem getQuestions_nonArray_escapes :
    (getQuestions (fun k =>
      if k == STORAGE_KEY then some StoredData.jsonNonArray else none)).1 =
      LoadedValue.nonArrayValue ∧
    LoadedValue.nonArrayValue ≠ LoadedValue.questions [] ∧
    (getQuestions (fun k =>
      if k == STORAGE_KEY then some StoredData.unparseable else none)).1 =
      LoadedValue.questions [] := by
  refine ⟨?_, by decide, ?_⟩ <;> decide

theorem recoverLegacy_append_miss (ks : List String) (rest : List String) (m : Medium)
    (hmiss : ∀ k' ∈ ks, ∀ l', m k' = some (StoredData.jsonArr l') → l' = []) :
    recoverLegacy (ks ++ rest) m = recoverLegacy rest m := by
  induction ks with
  | nil => rfl
  | cons k' ks ih =>
    have htail := fun k'' hk'' => hmiss k'' (List.mem_cons_of_mem _ hk'')
    simp only [List.cons_append]
    cases hk : m k' with
    | none => rw [recoverLegacy, hk]; exact ih htail
    | some v =>
      cases v with
      | emptyString => rw [recoverLegacy, hk]; exact ih htail
      | unparseable => rw [recoverLegacy, hk]; exact ih htail
      | jsonNonArray => rw [recoverLegacy, hk]; exact ih htail
      | jsonArr l' =>
        have : l' = [] := hmiss k' (List.mem_cons_self _ _) l' hk
        subst this
        rw [recoverLegacy, hk]
        simp only [List.length_nil, gt_iff_lt, Nat.lt_irrefl, if_false]
        exact ih htail

/-- C6: with the canonical key absent and the first legacy key that holds
anything usable holding a non-empty record array, `getQuestions` returns
exactly those records and persists them under the canonical key; reading the
migrated medium again returns the same records without modifying the medium
further, so the migration is one-time and idempotent. -/
theorem getQuestions_legacy_migration (m : Medium) (ks₁ ks₂ : List String)
    (k : String) (l : List Question)
    (hsplit : LEGACY_KEYS = ks₁ ++ k :: ks₂)
    (hcanon : m STORAGE_KEY = none)
    (hmiss : ∀ k' ∈ ks₁, ∀ l', m k' = some (StoredData.jsonArr l') → l' = [])
    (hk : m k = some (StoredData.jsonArr l)) (hne : l ≠ []) :
    getQuestions m =
      (LoadedValue.questions l, setItem m STORAGE_KEY (StoredData.jsonArr l)) ∧
    getQuestions (setItem m STORAGE_KEY (StoredData.jsonArr l)) =
      (LoadedValue.questions l, setItem m STORAGE_KEY (StoredData.jsonArr l)) := by
  constructor
  · rw [getQuestions, hcanon, hsplit, recoverLegacy_append_miss ks₁ (k :: ks₂) m hmiss,
      recoverLegacy, hk]
    show (if l.length > 0
      then (LoadedValue.questions l, setItem m STORAGE_KEY (StoredData.jsonArr l))
      else recoverLegacy ks₂ m) = _
    rw [if_pos (by simpa [List.length_pos] using hne)]
  · rw [getQuestions,
      show setItem m STORAGE_KEY (StoredData.jsonArr l) STORAGE_KEY =
        some (StoredData.jsonArr l) by simp [setItem]]

/-- Witness for C6 at a concrete input: the canonical key is absent and the
first legacy key holds the one-record array of the specification scenario. -/
theorem getQuestions_legacy_migration_holds :
    getQuestions (fun k' =>
      if k' == "interview_questions"
      then some (StoredData.jsonArr [sampleQ "x" "old Q" "Other" none 1 1])
      else none) =
      (LoadedValue.questions [sampleQ "x" "old Q" "Other" none 1 1],
        setItem (fun k' =>
          if k' == "interview_questions"
          then some (StoredData.jsonArr [sampleQ "x" "old Q" "Other" none 1 1])
          else none) STORAGE_KEY
          (StoredData.jsonArr [sampleQ "x" "old Q" "Other" none 1 1])) ∧
    getQuestions (setItem (fun k' =>
      if k' == "interview_questions"
      then some (StoredData.jsonArr [sampleQ "x" "old Q" "Other" none 1 1])
      else none) STORAGE_KEY
      (StoredData.jsonArr [sampleQ "x" "old Q" "Other" none 1 1])) =
      (LoadedValue.questions [sampleQ "x" "old Q" "Other" none 1 1],
        setItem (fun k' =>
          if k' == "interview_questions"
          then some (StoredData.jsonArr [sampleQ "x" "old Q" "Other" none 1 1])
          else none) STORAGE_KEY
          (StoredData.jsonArr [sampleQ "x" "old Q" "Other" none 1 1])) :=
  getQuestions_legacy_migration
    (fun k' =>
      if k' == "interview_questions"
      then some (StoredData.jsonArr [sampleQ "x" "old Q" "Other" none 1 1])
      else none)
    [] ["interview_prep_questions", "interview_app_data"] "interview_questions"
    [sampleQ "x" "old Q" "Other" none 1 1]
    rfl (by decide) (by simp) (by decide) (by decide)

/-!
Substring matching (claim C9): the scanning implementation agrees with the
mathematical prefix/infix relations.
-/

theorem leadEq_iff (sub : List Char) : ∀ l : List Char,
    (leadEq sub l = true ↔ sub <+: l) := by
  induction sub with
  | nil => intro l; simp [leadEq]
  | cons a as ih =>
    intro l
    cases l with
    | nil =>
      simp only [leadEq]
      constructor
      · intro h; exact absurd h (by simp)
      · intro h
        have := h.sublist
        simp at this
    | cons b bs =>
      simp [leadEq, List.cons_prefix_cons, ih bs, Bool.and_eq_true]

theorem hasSub_iff (sub : List Char) : ∀ l : List Char,
    (hasSub sub l = true ↔ sub <:+: l) := by
  intro l
  induction l with
  | nil =>
    simp only [hasSub]
    constructor
    · intro h
      have : sub = [] := by simpa [List.isEmpty_iff] using h
      subst this
      exact List.nil_infix
    · intro h
      have : sub = [] := by simpa using h.sublist
      simp [this]
  | cons c rest ih =>
    simp [hasSub, Bool.or_eq_true, leadEq_iff, ih, List.infix_cons_iff]

theorem jsIncludes_iff (s sub : String) :
    (jsIncludes s sub = true ↔ sub.data <:+: s.data) :=
  hasSub_iff sub.data s.data

theorem jsToLower_empty : jsToLower "" = "" := rfl

theorem jsToLower_data_empty_iff (s : String) :
    (jsToLower s).data = [] ↔ s = "" := by
  constructor
  · intro h
    have : s.data = [] := by
      have := congrArg List.length h
      simpa [jsToLower] using List.eq_nil_of_length_eq_zero (by simpa [jsToLower] using this)
    cases s
    simp_all
  · intro h
    subst h
    rfl

theorem bool_eq_of_iff {x y : Bool} (h : x = true ↔ y = true) : x = y := by
  cases x <;> cases y <;> simp_all

theorem filter_date_iff (now : Int) (df : String) (q : Question) :
    ((if df != "all" then
        (if df == "today" then decide (now - q.updatedAt < oneDay)
         else if df == "week" then decide (now - q.updatedAt < oneDay * 7)
         else if df == "month" then decide (now - q.updatedAt < oneDay * 30)
         else if df == "year" then decide (now - q.updatedAt < oneDay * 365)
         else true)
      else true) = true) ↔ specDatePass now df q := by
  by_cases h1 : df = "all"
  · subst h1; simp [specDatePass]
  · by_cases h2 : df = "today"
    · subst h2; simp [specDatePass]
    · by_cases h3 : df = "week"
      · subst h3; simp [specDatePass]
      · by_cases h4 : df = "month"
        · subst h4; simp [specDatePass]
        · by_cases h5 : df = "year"
          · subst h5; simp [specDatePass]
          · simp [specDatePass, h1, h2, h3, h4, h5]

theorem filter_search_iff (s : String) (q : Question) :
    ((jsIncludes (jsToLower q.text) (jsToLower s) ||
        (match q.companyTag with
         | some tag => tag != "" && jsIncludes (jsToLower tag) (jsToLower s)
         | none => false)) = true) ↔
      (s = "" ∨ (jsToLower s).data <:+: (jsToLower q.text).data ∨
        specTagSub s q.companyTag) := by
  have hnil : (jsToLower "").data = ([] : List Char) := rfl
  cases htag : q.companyTag with
  | none =>
    simp only [htag, specTagSub, Bool.or_eq_true, jsIncludes_iff]
    constructor
    · rintro (h | h)
      · exact Or.inr (Or.inl h)
      · simp at h
    · rintro (h | h | h)
      · subst h
        left
        rw [hnil]
        exact List.nil_infix
      · exact Or.inl h
      · exact h.elim
  | some tag =>
    simp only [htag, specTagSub, Bool.or_eq_true, Bool.and_eq_true, bne_iff_ne,
      jsIncludes_iff]
    constructor
    · rintro (h | ⟨hne0, hsub⟩)
      · exact Or.inr (Or.inl h)
      · exact Or.inr (Or.inr hsub)
    · rintro (h | h | h)
      · subst h
        left
        rw [hnil]
        exact List.nil_infix
      · exact Or.inl h
      · by_cases h0 : tag = ""
        · subst h0
          left
          have hsl := h.sublist
          rw [hnil] at hsl
          rw [List.sublist_nil.mp hsl]
          exact List.nil_infix
        · exact Or.inr ⟨h0, h⟩

/-- C9: the filter returns exactly the subsequence of the input, in the
input's original order without re-sorting, consisting of the records that
satisfy the conjunction of the three specification predicates — category
pass-through on `"All"` or exact equality, the case-insensitive substring
text predicate over `text` or `companyTag` (missing tag non-matching, empty
search always passing), and the relative date bucket on `now - updatedAt`. -/
theorem filteredQuestions_spec (now : Int) (cat df s : String)
    (qs : List Question) :
    List.Sublist (filteredQuestions now cat df s qs) qs ∧
    filteredQuestions now cat df s qs =
      qs.filter (fun q => decide (specMatch now cat s df q)) := by
  constructor
  · exact List.filter_sublist qs
  · apply List.filter_congr
    intro q hq
    apply bool_eq_of_iff
    rw [decide_eq_true_iff]
    show ((cat == "All" || q.category == cat) &&
        ((if df != "all" then
            (if df == "today" then decide (now - q.updatedAt < oneDay)
             else if df == "week" then decide (now - q.updatedAt < oneDay * 7)
             else if df == "month" then decide (now - q.updatedAt < oneDay * 30)
             else if df == "year" then decide (now - q.updatedAt < oneDay * 365)
             else true)
          else true)) &&
        (jsIncludes (jsToLower q.text) (jsToLower s) ||
          (match q.companyTag with
           | some tag => tag != "" && jsIncludes (jsToLower tag) (jsToLower s)
           | none => false))) = true ↔ specMatch now cat s df q
    unfold specMatch
    simp only [Bool.and_eq_true, and_assoc]
    exact and_congr (by simp) (and_congr (filter_date_iff now df q)
      (filter_search_iff s q))
